import Mathlib

/-!
Verification of the Airkeys rhythm-game core: a shallow embedding of the
score model, melody/harmony split, hit detector, melody gate and timeline
controller found in src/script.js, src/js/midi.js, src/js/audio.js and the
unnamed module variants, together with proofs of the spec's claims.

Times and screen coordinates are embedded as exact rationals (JS numbers
are binary doubles; the algorithms are modelled over ℚ, which preserves
every comparison the code performs on the nose for the dyadic/decimal
constants involved).  Note ids are embedded as (trackIndex, ordinal)
pairs, mirroring the template string `${trackIndex}:${idx}` of the source,
which is injective in the pair.
-/

namespace Airkeys

/-- A note as produced by `loadMIDI` in src/script.js (the `name` display
string of the source record is omitted; no algorithm reads it). -/
structure Note where
  id : Nat × Nat
  midi : Int
  time : ℚ
  duration : ℚ
  velocity : ℚ
  trackIndex : Nat
deriving DecidableEq, Repr

/-- EPSILON = 0.05 s, the simultaneity tolerance of both the
melody/harmony split and the melody gate. -/
def epsilon : ℚ := 5 / 100

/-- `Math.abs` on exact rationals. -/
def mathAbs (x : ℚ) : ℚ := if x < 0 then -x else x

theorem mathAbs_eq_abs (x : ℚ) : mathAbs x = |x| := by
  unfold mathAbs
  rcases lt_or_le x 0 with h | h
  · rw [if_pos h, abs_of_neg h]
  · rw [if_neg (not_lt.mpr h), abs_of_nonneg h]

/-! ## Melody/harmony split, script.js variant (loadMIDI, lines 91–109)

```js
let i = 0;
while (i < notes.length) {
    const groupStart = notes[i].time;
    const group = [];
    let j = i;
    while (j < notes.length && Math.abs(notes[j].time - groupStart) <= epsilon) {
        group.push(notes[j]); j++;
    }
    ...
    i = j;
}
```

The inner `while` starts at `j = i` and its first test is trivially true
(`|notes[i].time - groupStart| = 0`), so each group is the head note
followed by the longest prefix of the remaining notes within `epsilon`
of the head's (anchor's) time. -/

/-- The inner-while test: the note's time is within EPSILON of the group
anchor. -/
def nearAnchor (anchor : ℚ) (m : Note) : Bool :=
  decide (mathAbs (m.time - anchor) ≤ epsilon)

/-- The grouping scan of script.js `loadMIDI`: anchor-based, boundary
inclusive (`<= epsilon`). -/
def groupsOf : List Note → List (List Note)
  | [] => []
  | n :: rest =>
    (n :: rest.takeWhile (nearAnchor n.time)) ::
      groupsOf (rest.dropWhile (nearAnchor n.time))
termination_by l => l.length
decreasing_by
  simp only [List.length_cons]
  exact Nat.lt_succ_of_le (List.dropWhile_sublist _).length_le

/-- `group.reduce((acc, n) => (n.midi > acc.midi ? n : acc), group[0])`. -/
def chooseHigher (acc n : Note) : Note :=
  if n.midi > acc.midi then n else acc

/-- Melody selection of script.js: the `reduce` above over the whole
group, seeded with the group's first element (JS `reduce` with an initial
value folds over every element, the first included). -/
def selectMelody : List Note → Option Note
  | [] => none
  | n :: rest => some ((n :: rest).foldl chooseHigher n)

/-- The harmony contribution of one group of script.js `loadMIDI`:
`group.forEach(n => { if (n.id !== melody.id) harmonyNotes.push(n); })`. -/
def harmonyOfGroup (g : List Note) : List Note :=
  match selectMelody g with
  | none => []
  | some m => g.filter fun n => decide (n.id ≠ m.id)

/-- The full split of script.js `loadMIDI`: per group, the selected
melody note goes to `melodyNotes` and every group member with a
different id goes to `harmonyNotes`. -/
def splitScore (notes : List Note) : List Note × List Note :=
  let gs := groupsOf notes
  (gs.filterMap selectMelody, gs.flatMap harmonyOfGroup)

/-! ## Melody/harmony split, src/js/midi.js variant
(`separateMelodyHarmony`, lines 87–127)

```js
const timeWindow = 0.05;
let currentGroup = []; let currentGroupTime = -1;
state.notes.forEach(note => {
    if (currentGroupTime < 0 || Math.abs(note.time - currentGroupTime) < timeWindow) {
        currentGroup.push(note); currentGroupTime = note.time;
    } else {
        if (currentGroup.length > 0) groups.push([...currentGroup]);
        currentGroup = [note]; currentGroupTime = note.time;
    }
});
if (currentGroup.length > 0) groups.push(currentGroup);
```

Note the two differences from the script.js scan: the comparison time
`currentGroupTime` advances to each newly added note (sliding window),
and the comparison is strict (`< timeWindow`). -/

/-- Accumulator of the `forEach` scan of `separateMelodyHarmony`. -/
structure SlidingAcc where
  groups : List (List Note)
  currentGroup : List Note
  currentGroupTime : ℚ
deriving Repr

/-- One `forEach` step of `separateMelodyHarmony`'s grouping. -/
def slidingStep (acc : SlidingAcc) (note : Note) : SlidingAcc :=
  if acc.currentGroupTime < 0 ∨ mathAbs (note.time - acc.currentGroupTime) < epsilon then
    { acc with
      currentGroup := acc.currentGroup ++ [note]
      currentGroupTime := note.time }
  else
    { groups :=
        if acc.currentGroup.length > 0 then acc.groups ++ [acc.currentGroup]
        else acc.groups
      currentGroup := [note]
      currentGroupTime := note.time }

/-- The grouping of `separateMelodyHarmony` in src/js/midi.js:
a sliding window with strict comparison. -/
def slidingGroups (notes : List Note) : List (List Note) :=
  let acc := notes.foldl slidingStep ⟨[], [], -1⟩
  if acc.currentGroup.length > 0 then acc.groups ++ [acc.currentGroup]
  else acc.groups

/-- Melody/harmony assignment of `separateMelodyHarmony`
(src/js/midi.js lines 111–127): singleton groups go wholly to melody;
larger groups are stably sorted by descending pitch, the head becomes
melody and the rest harmony. -/
def separateMelodyHarmony (notes : List Note) : List Note × List Note :=
  let gs := slidingGroups notes
  (gs.filterMap fun g =>
     if g.length = 1 then g.head?
     else (g.mergeSort fun a b => decide (b.midi ≤ a.midi)).head?,
   gs.flatMap fun g =>
     if g.length = 1 then []
     else (g.mergeSort fun a b => decide (b.midi ≤ a.midi)).tail)

/-! ## Score load (script.js `loadMIDI`, lines 67–112)

`loadMIDI` reads the raw parsed MIDI object (`midi.tracks`, each a list of
raw notes, and `midi.duration`), applies `TEMPO_MULTIPLIER = 1 /
currentSpeed` to every note's `time` and `duration`, sorts by time
(ES2019 `Array.prototype.sort` is stable) and runs the split above.  The
raw MIDI object is kept in the global `midi` and is what a speed change
re-reads. -/

/-- A raw note of the parsed MIDI object (`track.notes[idx]`). -/
structure RawNote where
  midi : Int
  time : ℚ
  duration : ℚ
  velocity : ℚ
deriving DecidableEq, Repr

/-- The raw parsed MIDI object: its tracks and its declared duration. -/
structure RawMidi where
  tracks : List (List RawNote)
  duration : ℚ
deriving DecidableEq, Repr

/-- Note construction of `loadMIDI`: id `(trackIndex, idx)` (the source's
`${trackIndex}:${idx}` string), timing scaled by the tempo multiplier. -/
def buildNote (mult : ℚ) (trackIndex idx : Nat) (r : RawNote) : Note :=
  { id := (trackIndex, idx)
    midi := r.midi
    time := r.time * mult
    duration := r.duration * mult
    velocity := r.velocity
    trackIndex := trackIndex }

/-- The flat note list of `loadMIDI` before sorting: every track's notes
with their (trackIndex, idx) ids, timing scaled. -/
def extractNotes (tracks : List (List RawNote)) (mult : ℚ) : List Note :=
  (tracks.enum.flatMap fun (trackIndex, track) =>
    track.enum.map fun (idx, r) => buildNote mult trackIndex idx r)

/-- `notes.sort((a, b) => a.time - b.time)` — a stable sort by time. -/
def sortByTime (l : List Note) : List Note :=
  l.mergeSort fun a b => decide (a.time ≤ b.time)

/-- The score produced by one `loadMIDI` call. -/
structure Score where
  notes : List Note
  melodyNotes : List Note
  harmonyNotes : List Note
  duration : ℚ
deriving Repr

/-- The pure pipeline of script.js `loadMIDI` at a given speed: scale,
sort, split, and scale the declared duration. -/
def loadScore (m : RawMidi) (speed : ℚ) : Score :=
  let mult : ℚ := 1 / speed
  let notes := sortByTime (extractNotes m.tracks mult)
  let split := splitScore notes
  { notes := notes
    melodyNotes := split.1
    harmonyNotes := split.2
    duration := m.duration * mult }

/-! ## Global game state (the globals of src/script.js) -/

/-- A mapped hand point (`allFingerPoints` entry). -/
structure Point where
  x : ℚ
  y : ℚ
deriving DecidableEq, Repr

/-- A piano key as queried by the hit test: its pitch, its DOM rectangle
(left edge and width, in the page coordinate space that
`getBoundingClientRect` yields) and its colour class. -/
structure Key where
  midi : Int
  rectLeft : ℚ
  rectWidth : ℚ
  isWhite : Bool
deriving DecidableEq, Repr

/-- The mutable globals of src/script.js that the playback/gating engine
reads and writes.  `canvasH` is `canvas.height` and `containerLeft` is
`canvas.getBoundingClientRect().left`, both fixed per frame. -/
structure GameState where
  rawMidi : RawMidi
  notes : List Note
  melodyNotes : List Note
  harmonyNotes : List Note
  isPlaying : Bool
  gatedPause : Bool
  currentTime : ℚ
  duration : ℚ
  currentSpeed : ℚ
  playedMelodyIds : Finset (Nat × Nat)
  touchedMelodyCount : Nat
  finalScore : ℚ
  allFingerPoints : List Point
  pianoKeys : List Key
  canvasH : ℚ
  containerLeft : ℚ

/-! ## Hit detector (script.js `getTouchedNote`, lines 439–485) -/

/-- WHITE_KEY_WIDTH. -/
def WHITE_KEY_WIDTH : ℚ := 30
/-- BLACK_KEY_WIDTH. -/
def BLACK_KEY_WIDTH : ℚ := 20
/-- The hit-zone band half-height (`hitZoneTolerance = 50`). -/
def hitZoneTolerance : ℚ := 50
/-- `lookAhead = 3`. -/
def lookAhead : ℚ := 3
/-- `lookBehind = 0.5`. -/
def lookBehind : ℚ := 1 / 2

/-- `hitZoneY = canvas.height * 0.6`. -/
def hitZoneY (canvasH : ℚ) : ℚ := canvasH * (6 / 10)
/-- `pixelsPerSecond = (canvas.height - 140) * 0.5`. -/
def pixelsPerSecond (canvasH : ℚ) : ℚ := (canvasH - 140) * (1 / 2)
/-- `pianoTopY = canvas.height - 140`. -/
def pianoTopY (canvasH : ℚ) : ℚ := canvasH - 140

/-- `keyX`: horizontal centre of the key in canvas coordinates. -/
def keyX (containerLeft : ℚ) (k : Key) : ℚ :=
  k.rectLeft - containerLeft + k.rectWidth / 2

/-- The on-screen width of a falling note. -/
def noteWidthOf (k : Key) : ℚ :=
  if k.isWhite then WHITE_KEY_WIDTH - 4 else BLACK_KEY_WIDTH - 2

/-- `noteY = pianoTopY - timeDiff * pixelsPerSecond` (the rectangle's
bottom edge). -/
def noteYOf (canvasH timeDiff : ℚ) : ℚ :=
  pianoTopY canvasH - timeDiff * pixelsPerSecond canvasH

/-- `noteHeight = Math.max(10, note.duration * pixelsPerSecond)`. -/
def noteHeightOf (canvasH : ℚ) (note : Note) : ℚ :=
  max 10 (note.duration * pixelsPerSecond canvasH)

/-- The body of the inner `for (let note of melodyNotes)` loop of
`getTouchedNote` for one hand point and one note: `some note` when the
point touches the note, `none` when the loop would `continue`. -/
def touchCheck (s : GameState) (p : Point) (note : Note) : Option Note :=
  if note.id ∈ s.playedMelodyIds then none
  else
    let timeDiff := note.time - s.currentTime
    if -lookBehind < timeDiff ∧ timeDiff < lookAhead then
      match s.pianoKeys.find? fun k => decide (k.midi = note.midi) with
      | none => none
      | some keyData =>
        let kx := keyX s.containerLeft keyData
        let noteY := noteYOf s.canvasH timeDiff
        let noteWidth := noteWidthOf keyData
        let noteHeight := noteHeightOf s.canvasH note
        let noteBottom := noteY
        let noteTop := noteY - noteHeight
        if hitZoneY s.canvasH - hitZoneTolerance ≤ noteBottom ∧
            noteTop ≤ hitZoneY s.canvasH + hitZoneTolerance then
          let noteLeft := kx - noteWidth / 2
          let noteRight := kx + noteWidth / 2
          if noteLeft ≤ p.x ∧ p.x ≤ noteRight ∧ noteTop ≤ p.y ∧ p.y ≤ noteBottom then
            some note
          else none
        else none
    else none

/-- `getTouchedNote`: first match wins, hand points outer, melody notes
inner, both in insertion order. -/
def getTouchedNote (s : GameState) : Option Note :=
  if s.allFingerPoints.length = 0 ∨ s.pianoKeys.length = 0 then none
  else
    s.allFingerPoints.findSome? fun p =>
      s.melodyNotes.findSome? fun note => touchCheck s p note

/-! ## Melody gate (script.js `handleMelodyGate` / `playMelodyNote`,
lines 487–510) -/

/-- `playMelodyNote` (script.js lines 506–510): trigger the sound, mark
the id played, count the touch.  The triggered sound is recorded in the
returned note so that its emission is observable. -/
def playMelodyNote (s : GameState) (note : Note) : GameState :=
  { s with
    playedMelodyIds := insert note.id s.playedMelodyIds
    touchedMelodyCount := s.touchedMelodyCount + 1 }

/-- The `simultaneousNotes` filter of `handleMelodyGate`: not-yet-played
melody notes within EPSILON of the touched note's time. -/
def simultaneousNotes (s : GameState) (touchedNote : Note) : List Note :=
  s.melodyNotes.filter fun note =>
    decide (note.id ∉ s.playedMelodyIds ∧ mathAbs (note.time - touchedNote.time) ≤ epsilon)

/-- `handleMelodyGate` (script.js lines 487–504).  Returns the new state
and the list of notes whose sounds were triggered, in trigger order.
In the `gatedPause` branch the source also calls `startPlayback()`,
which starts the asynchronous 3-second countdown timer; that timer's
later completion is outside the synchronous tick modelled here. -/
def handleMelodyGate (s : GameState) : GameState × List Note :=
  match getTouchedNote s with
  | none => (s, [])
  | some touchedNote =>
    let sim := simultaneousNotes s touchedNote
    if s.gatedPause then (sim.foldl playMelodyNote s, sim)
    else if s.isPlaying then (sim.foldl playMelodyNote s, sim)
    else (s, [])

/-! ## Animation tick (script.js `animate`, lines 408–437) -/

/-- The auto-mark pass of `animate` (script.js lines 419–423): every
melody note whose time has passed by more than 0.1 s and is not yet
played is added to `playedMelodyIds`; `touchedMelodyCount` is not
written. -/
def autoMark (s : GameState) : GameState :=
  { s with
    playedMelodyIds :=
      s.melodyNotes.foldl
        (fun acc note =>
          if note.id ∉ acc ∧ note.time < s.currentTime - 1 / 10 then
            insert note.id acc
          else acc)
        s.playedMelodyIds }

/-- `pausePlayback` (script.js lines 362–370): stop, and re-read the
transport clock into `currentTime`. -/
def pausePlayback (transportSeconds : ℚ) (s : GameState) : GameState :=
  { s with isPlaying := false, currentTime := transportSeconds }

/-- `showEndScreen`'s score computation (script.js lines 692–693):
`melodyNotes.length > 0 ? touched / length * 100 : 0`. -/
def computeFinalScore (s : GameState) : ℚ :=
  if s.melodyNotes.length > 0 then
    (s.touchedMelodyCount : ℚ) / (s.melodyNotes.length : ℚ) * 100
  else 0

/-- One `animate` tick.  `transportSeconds` is the value of
`Tone.Transport.seconds` during this frame (read again, unchanged within
the frame, by `pausePlayback`).  Drawing calls are omitted; the gate is
the only other state writer in the frame. -/
def animateTick (transportSeconds : ℚ) (s : GameState) : GameState × List Note :=
  if s.isPlaying then
    let s1 := { s with currentTime := transportSeconds }
    if s1.duration ≤ s1.currentTime then
      let s2 := { s1 with currentTime := s1.duration }
      let s3 := pausePlayback transportSeconds s2
      ({ s3 with finalScore := computeFinalScore s3 }, [])
    else
      let s2 := autoMark s1
      handleMelodyGate s2
  else if s.gatedPause then handleMelodyGate s
  else (s, [])

/-! ## Seek, speed change, song change (script.js lines 239–312, 372–389) -/

/-- `seekTo` (script.js lines 372–389): clamp, reset the played set and
the touch counter, then re-mark every melody note already more than
0.1 s in the past (without crediting).  The pause/delayed-restart dance
when playing only re-anchors the clock. -/
def seekTo (time : ℚ) (s : GameState) : GameState :=
  let ct := max 0 (min time s.duration)
  { s with
    currentTime := ct
    playedMelodyIds :=
      s.melodyNotes.foldl
        (fun acc n => if n.time < ct - 1 / 10 then insert n.id acc else acc)
        ∅
    touchedMelodyCount := 0 }

/-- Install a freshly loaded score into the state (the assignments
`loadMIDI` performs on the globals). -/
def applyScore (sc : Score) (s : GameState) : GameState :=
  { s with
    notes := sc.notes
    melodyNotes := sc.melodyNotes
    harmonyNotes := sc.harmonyNotes
    duration := sc.duration }

/-- The speed-change handler (script.js lines 277–296): set the speed,
reload the score from the raw MIDI source, reset time, played set and
touch counter. -/
def changeSpeed (speed : ℚ) (s : GameState) : GameState :=
  let s1 := applyScore (loadScore s.rawMidi speed) { s with currentSpeed := speed }
  { s1 with
    currentTime := 0
    playedMelodyIds := ∅
    touchedMelodyCount := 0 }

/-- The song-change handler (script.js lines 253–275): load the new
song's score, reset time, played set and touch counter. -/
def changeSong (m : RawMidi) (s : GameState) : GameState :=
  let s1 := applyScore (loadScore m s.currentSpeed) { s with rawMidi := m }
  { s1 with
    currentTime := 0
    playedMelodyIds := ∅
    touchedMelodyCount := 0 }

/-! ## Harmony scheduling

Two variants exist in the repository.  src/js/audio.js `scheduleNotes`
(lines 78–94) clamps the sounded duration to a floor of 0.1 s; the
monolithic src/script.js `scheduleNotes` (lines 391–406) passes the raw
duration.  Both schedule exactly the harmony notes with
`note.time >= currentTime`, at absolute transport offset `note.time`.
A scheduled trigger is recorded as (transport offset, sounded duration,
note). -/

/-- src/js/audio.js `scheduleNotes` (module variant, with the
`safeDuration = Math.max(0.1, note.duration)` clamp). -/
def scheduleNotesModule (harmonyNotes : List Note) (currentTime : ℚ) :
    List (ℚ × ℚ × Note) :=
  harmonyNotes.filterMap fun note =>
    if currentTime ≤ note.time then
      some (note.time, max (1 / 10) note.duration, note)
    else none

/-- src/script.js `scheduleNotes` (monolithic variant, raw
`note.duration`). -/
def scheduleNotesScript (harmonyNotes : List Note) (currentTime : ℚ) :
    List (ℚ × ℚ × Note) :=
  harmonyNotes.filterMap fun note =>
    if currentTime ≤ note.time then some (note.time, note.duration, note)
    else none

/-! ## Lemmas about the grouping scans -/

theorem groupsOf_cons (n : Note) (rest : List Note) :
    groupsOf (n :: rest) =
      (n :: rest.takeWhile (nearAnchor n.time)) ::
        groupsOf (rest.dropWhile (nearAnchor n.time)) := by
  rw [groupsOf]

theorem epsilon_nonneg : (0 : ℚ) ≤ epsilon := by norm_num [epsilon]

/-- Every member of a group of the script.js scan is within EPSILON of
the group's first note (the anchor). -/
theorem groupsOf_anchor_bound (notes : List Note) :
    ∀ g ∈ groupsOf notes, ∀ a, g.head? = some a →
      ∀ m ∈ g, mathAbs (m.time - a.time) ≤ epsilon := by
  induction notes using groupsOf.induct with
  | case1 => intro g hg; simp [groupsOf] at hg
  | case2 n rest ih =>
    intro g hg a ha m hm
    rw [groupsOf_cons] at hg
    rcases List.mem_cons.mp hg with h | h
    · subst h
      simp only [List.head?_cons, Option.some.injEq] at ha
      subst ha
      rcases List.mem_cons.mp hm with rfl | hm
      · simp only [sub_self, mathAbs]; norm_num [epsilon]
      · have := List.mem_takeWhile_imp hm
        simpa [nearAnchor] using this
    · exact ih g h a ha m hm

theorem groupsOf_head? (l : List Note) (g : List Note)
    (h : (groupsOf l).head? = some g) : g.head? = l.head? := by
  cases l with
  | nil => simp [groupsOf] at h
  | cons n rest =>
    rw [groupsOf_cons] at h
    simp only [List.head?_cons, Option.some.injEq] at h
    subst h
    simp

theorem head_of_dropWhile_eq_cons {α : Type} {p : α → Bool} {l : List α}
    {d : α} {t : List α} (h : l.dropWhile p = d :: t) : p d = false := by
  induction l with
  | nil => simp at h
  | cons x xs ih =>
    rw [List.dropWhile_cons] at h
    by_cases hp : p x = true
    · rw [if_pos hp] at h; exact ih h
    · rw [if_neg hp] at h
      injection h with h1 h2
      subst h1
      simpa using hp

/-- Maximality of the script.js scan: the first note after each group is
more than EPSILON away from that group's anchor. -/
theorem groupsOf_maximal (notes : List Note) :
    List.Chain'
      (fun g g' => ∀ a ∈ g.head?, ∀ b ∈ g'.head?,
        epsilon < mathAbs (b.time - a.time))
      (groupsOf notes) := by
  induction notes using groupsOf.induct with
  | case1 => simp [groupsOf]
  | case2 n rest ih =>
    rw [groupsOf_cons]
    rw [List.chain'_cons']
    refine ⟨?_, ih⟩
    intro g' hg' a ha b hb
    simp only [List.head?_cons, Option.mem_def, Option.some.injEq] at ha
    subst ha
    have hgh : g'.head? = (rest.dropWhile (nearAnchor n.time)).head? :=
      groupsOf_head? _ _ hg'
    rw [hgh] at hb
    rcases hd : rest.dropWhile (nearAnchor n.time) with _ | ⟨d, t⟩
    · rw [hd] at hb; simp at hb
    · rw [hd] at hb
      simp only [List.head?_cons, Option.mem_def, Option.some.injEq] at hb
      subst hb
      have hfalse := head_of_dropWhile_eq_cons hd
      have : ¬ (mathAbs (d.time - n.time) ≤ epsilon) := by
        simpa [nearAnchor] using hfalse
      exact not_le.mp this

/-- C1 (amended): in the script.js `loadMIDI` split, each group of the
single left-to-right scan consists of notes whose startTime is within
EPSILON = 0.05 s of the group's anchor (the startTime of the group's
first note), and the scan is maximal: the first note after each group is
more than EPSILON from that group's anchor.  (The
`separateMelodyHarmony` variant of src/js/midi.js is NOT anchored; see
the counterexample.) -/
theorem loadMIDI_grouping_anchored (notes : List Note) :
    (∀ g ∈ groupsOf notes, ∀ a, g.head? = some a →
       ∀ m ∈ g, mathAbs (m.time - a.time) ≤ epsilon) ∧
    List.Chain'
      (fun g g' => ∀ a ∈ g.head?, ∀ b ∈ g'.head?,
        epsilon < mathAbs (b.time - a.time))
      (groupsOf notes) :=
  ⟨groupsOf_anchor_bound notes, groupsOf_maximal notes⟩

/-- Concrete notes exhibiting the behaviour of the src/js/midi.js
sliding-window scan: times 0 s, 0.04 s, 0.08 s and 0.05 s. -/
def cNoteA : Note :=
  { id := (0, 0), midi := 60, time := 0, duration := 1, velocity := 1, trackIndex := 0 }
def cNoteB : Note :=
  { id := (0, 1), midi := 64, time := 1 / 25, duration := 1, velocity := 1, trackIndex := 0 }
def cNoteC : Note :=
  { id := (0, 2), midi := 62, time := 2 / 25, duration := 1, velocity := 1, trackIndex := 0 }
def cNoteD : Note :=
  { id := (0, 3), midi := 61, time := 1 / 20, duration := 1, velocity := 1, trackIndex := 0 }

/-- C1 (counterexample): the `separateMelodyHarmony` scan of
src/js/midi.js violates the claimed anchor rule in both directions.  On
sorted notes at 0 s, 0.04 s and 0.08 s it produces the single group
[0, 0.04, 0.08] although the 0.08 s note is more than EPSILON from the
group's first note (the window slides), while the anchored script.js scan
splits them; and on notes at 0 s and 0.05 s — exactly EPSILON apart,
which the claim's `≤ EPSILON` rule must join — it starts a new group
(its comparison is strict `<`). -/
theorem slidingWindow_not_anchored :
    slidingGroups [cNoteA, cNoteB, cNoteC] = [[cNoteA, cNoteB, cNoteC]] ∧
    ¬ (mathAbs (cNoteC.time - cNoteA.time) ≤ epsilon) ∧
    groupsOf [cNoteA, cNoteB, cNoteC] = [[cNoteA, cNoteB], [cNoteC]] ∧
    slidingGroups [cNoteA, cNoteD] = [[cNoteA], [cNoteD]] ∧
    mathAbs (cNoteD.time - cNoteA.time) ≤ epsilon := by
  refine ⟨?_, ?_, ?_, ?_, ?_⟩
  · norm_num [slidingGroups, slidingStep, mathAbs, epsilon,
      cNoteA, cNoteB, cNoteC]
  · norm_num [mathAbs, epsilon, cNoteA, cNoteC]
  · norm_num [groupsOf_cons, groupsOf, nearAnchor, mathAbs, epsilon,
      cNoteA, cNoteB, cNoteC]
  · norm_num [slidingGroups, slidingStep, mathAbs, epsilon,
      cNoteA, cNoteD]
  · norm_num [mathAbs, epsilon, cNoteA, cNoteD]

/-- Witness for the amended C1 theorem at a concrete input: notes at 0 s
and 0.04 s form one group of the script.js scan, and the theorem yields
the anchor bound for the second note. -/
theorem loadMIDI_grouping_anchored_witness :
    mathAbs (cNoteB.time - cNoteA.time) ≤ epsilon := by
  have h := (loadMIDI_grouping_anchored [cNoteA, cNoteB]).1
  refine h [cNoteA, cNoteB] ?_ cNoteA ?_ cNoteB ?_
  · have hg : groupsOf [cNoteA, cNoteB] = [[cNoteA, cNoteB]] := by
      norm_num [groupsOf_cons, groupsOf, nearAnchor, mathAbs, epsilon,
        cNoteA, cNoteB]
    rw [hg]; exact List.mem_singleton.mpr rfl
  · rfl
  · simp

/-! ## Lemmas about the melody selection (the `reduce` of loadMIDI) -/

theorem foldl_chooseHigher_le (l : List Note) : ∀ a : Note,
    a.midi ≤ (l.foldl chooseHigher a).midi ∧
      ∀ n ∈ l, n.midi ≤ (l.foldl chooseHigher a).midi := by
  induction l with
  | nil => intro a; exact ⟨le_refl _, by simp⟩
  | cons x t ih =>
    intro a
    simp only [List.foldl_cons]
    have h := ih (chooseHigher a x)
    have hax : a.midi ≤ (chooseHigher a x).midi := by
      unfold chooseHigher; split <;> omega
    have hxx : x.midi ≤ (chooseHigher a x).midi := by
      unfold chooseHigher; split <;> omega
    refine ⟨le_trans hax h.1, ?_⟩
    intro n hn
    rcases List.mem_cons.mp hn with rfl | hn
    · exact le_trans hxx h.1
    · exact h.2 n hn

theorem foldl_chooseHigher_mem (l : List Note) : ∀ a : Note,
    l.foldl chooseHigher a = a ∨ l.foldl chooseHigher a ∈ l := by
  induction l with
  | nil => intro a; left; rfl
  | cons x t ih =>
    intro a
    simp only [List.foldl_cons]
    rcases ih (chooseHigher a x) with h | h
    · rw [h]; unfold chooseHigher; split
      · right; exact List.mem_cons_self x t
      · left; rfl
    · right; exact List.mem_cons_of_mem x h

/-- The element the `reduce` picks is the first list element whose pitch
reaches the running maximum (strict `>` keeps the earlier note on
ties). -/
theorem foldl_chooseHigher_find? (l : List Note) : ∀ a : Note,
    (a :: l).find? (fun n => decide ((l.foldl chooseHigher a).midi ≤ n.midi)) =
      some (l.foldl chooseHigher a) := by
  induction l with
  | nil =>
    intro a
    simp [List.find?]
  | cons x t ih =>
    intro a
    by_cases hx : a.midi < x.midi
    · have hca : chooseHigher a x = x := by unfold chooseHigher; rw [if_pos hx]
      have hrx : (x :: t).foldl chooseHigher a = t.foldl chooseHigher x := by
        simp [List.foldl_cons, hca]
      have hxr : x.midi ≤ (t.foldl chooseHigher x).midi :=
        (foldl_chooseHigher_le t x).1
      have hfa : ((t.foldl chooseHigher x).midi ≤ a.midi) = False := by
        simp only [eq_iff_iff, iff_false]; omega
      rw [hrx, List.find?_cons]
      simp only [hfa, decide_False]
      exact ih x
    · have hca : chooseHigher a x = a := by unfold chooseHigher; rw [if_neg (by omega)]
      have hra : (x :: t).foldl chooseHigher a = t.foldl chooseHigher a := by
        simp [List.foldl_cons, hca]
      have har : a.midi ≤ (t.foldl chooseHigher a).midi :=
        (foldl_chooseHigher_le t a).1
      have hIH := ih a
      rw [hra]
      by_cases hqa : (t.foldl chooseHigher a).midi ≤ a.midi
      · have hq : (decide ((t.foldl chooseHigher a).midi ≤ a.midi)) = true :=
          decide_eq_true hqa
        rw [List.find?_cons] at hIH ⊢
        simp only [hq] at hIH ⊢
        exact hIH
      · have hq : (decide ((t.foldl chooseHigher a).midi ≤ a.midi)) = false :=
          decide_eq_false hqa
        have hqx : (decide ((t.foldl chooseHigher a).midi ≤ x.midi)) = false := by
          apply decide_eq_false; omega
        rw [List.find?_cons] at hIH ⊢
        simp only [hq] at hIH
        simp only [hq, List.find?_cons, hqx]
        exact hIH

/-- C3: in every simultaneity group of the loadMIDI split, the selected
melody note's pitch is greatest in the group, and on pitch ties the
first occurrence in sort order wins: the melody note is the first group
member whose pitch reaches the maximum. -/
theorem melody_highest_pitch (notes g : List Note) (m : Note)
    (_hg : g ∈ groupsOf notes) (hm : selectMelody g = some m) :
    (∀ n ∈ g, n.midi ≤ m.midi) ∧
    g.find? (fun n => decide (m.midi ≤ n.midi)) = some m := by
  cases g with
  | nil => simp [selectMelody] at hm
  | cons a rest =>
    simp only [selectMelody, Option.some.injEq] at hm
    have hca : chooseHigher a a = a := by unfold chooseHigher; simp
    have hm' : rest.foldl chooseHigher a = m := by
      rw [← hm, List.foldl_cons, hca]
    subst hm'
    refine ⟨?_, foldl_chooseHigher_find? rest a⟩
    intro n hn
    rcases List.mem_cons.mp hn with rfl | hn
    · exact (foldl_chooseHigher_le rest n).1
    · exact (foldl_chooseHigher_le rest a).2 n hn

/-- Witness for C3 at a concrete input: in the group of the notes at 0 s
(pitch 60) and 0.04 s (pitch 64), the selected melody note is the one of
pitch 64 and it dominates the other member. -/
theorem melody_highest_pitch_witness :
    cNoteA.midi ≤ cNoteB.midi := by
  have hg : [cNoteA, cNoteB] ∈ groupsOf [cNoteA, cNoteB] := by
    have h : groupsOf [cNoteA, cNoteB] = [[cNoteA, cNoteB]] := by
      norm_num [groupsOf_cons, groupsOf, nearAnchor, mathAbs, epsilon,
        cNoteA, cNoteB]
    rw [h]; exact List.mem_singleton.mpr rfl
  have hm : selectMelody [cNoteA, cNoteB] = some cNoteB := by
    norm_num [selectMelody, chooseHigher, cNoteA, cNoteB]
  exact (melody_highest_pitch [cNoteA, cNoteB] [cNoteA, cNoteB] cNoteB hg hm).1
    cNoteA (by simp)

/-! ## The split is a partition (C2 machinery) -/

theorem selectMelody_mem {g : List Note} {m : Note}
    (h : selectMelody g = some m) : m ∈ g := by
  cases g with
  | nil => simp [selectMelody] at h
  | cons a rest =>
    simp only [selectMelody, Option.some.injEq] at h
    subst h
    rcases foldl_chooseHigher_mem (a :: rest) a with h | h
    · rw [h]; exact List.mem_cons_self a rest
    · exact h

theorem selectMelody_eq_none {g : List Note} :
    selectMelody g = none ↔ g = [] := by
  cases g <;> simp [selectMelody]

theorem groupsOf_flatten (l : List Note) : (groupsOf l).flatten = l := by
  induction l using groupsOf.induct with
  | case1 => simp [groupsOf]
  | case2 n rest ih =>
    rw [groupsOf_cons]
    rw [List.flatten_cons, ih, List.cons_append,
      List.takeWhile_append_dropWhile]

theorem groupsOf_ne_nil (l : List Note) : ∀ g ∈ groupsOf l, g ≠ [] := by
  induction l using groupsOf.induct with
  | case1 => simp [groupsOf]
  | case2 n rest ih =>
    intro g hg
    rw [groupsOf_cons] at hg
    rcases List.mem_cons.mp hg with rfl | hg
    · simp
    · exact ih g hg

theorem filter_ne_id_length {g : List Note} {m : Note} (hm : m ∈ g)
    (hnd : (g.map Note.id).Nodup) :
    (g.filter fun n => decide (n.id ≠ m.id)).length + 1 = g.length := by
  induction g with
  | nil => simp at hm
  | cons x t ih =>
    rw [List.map_cons, List.nodup_cons] at hnd
    obtain ⟨hx, hndt⟩ := hnd
    rcases List.mem_cons.mp hm with rfl | hmt
    · have hall : t.filter (fun n => decide (n.id ≠ m.id)) = t := by
        apply List.filter_eq_self.mpr
        intro n hn
        apply decide_eq_true
        intro he
        exact hx (he ▸ List.mem_map_of_mem Note.id hn)
      rw [List.filter_cons, if_neg (by simp), hall, List.length_cons]
    · have hxm : x.id ≠ m.id := by
        intro he
        exact hx (he ▸ List.mem_map_of_mem Note.id hmt)
      rw [List.filter_cons, if_pos (by simpa using hxm), List.length_cons,
        List.length_cons]
      rw [← ih hmt hndt]

theorem harmonyOfGroup_subset {g : List Note} {y : Note}
    (h : y ∈ harmonyOfGroup g) : y ∈ g := by
  unfold harmonyOfGroup at h
  rcases hm : selectMelody g with _ | m <;> rw [hm] at h
  · simp at h
  · exact List.mem_of_mem_filter h

theorem harmonyOfGroup_ne_melody {g : List Note} {m y : Note}
    (hm : selectMelody g = some m) (h : y ∈ harmonyOfGroup g) :
    y.id ≠ m.id := by
  unfold harmonyOfGroup at h
  rw [hm] at h
  simpa using List.of_mem_filter h

theorem splitScore_group_lengths (gs : List (List Note))
    (hnd : (gs.flatten.map Note.id).Nodup) (hne : ∀ g ∈ gs, g ≠ []) :
    (gs.filterMap selectMelody).length + (gs.flatMap harmonyOfGroup).length
      = gs.flatten.length := by
  induction gs with
  | nil => simp
  | cons g t ih =>
    rw [List.flatten_cons, List.map_append, List.nodup_append] at hnd
    obtain ⟨hg, ht, _⟩ := hnd
    rcases hm : selectMelody g with _ | m
    · exact absurd (selectMelody_eq_none.mp hm)
        (hne g (List.mem_cons_self g t))
    · rw [List.filterMap_cons, hm, List.flatMap_cons, List.flatten_cons]
      simp only [List.length_cons, List.length_append]
      have hlen : (harmonyOfGroup g).length + 1 = g.length := by
        unfold harmonyOfGroup
        rw [hm]
        exact filter_ne_id_length (selectMelody_mem hm) hg
      have hih := ih ht fun g' hg' => hne g' (List.mem_cons_of_mem g hg')
      omega

theorem mem_filterMap_selectMelody_flatten {gs : List (List Note)} {x : Note}
    (h : x ∈ gs.filterMap selectMelody) : x ∈ gs.flatten := by
  obtain ⟨g, hg, hsm⟩ := List.mem_filterMap.mp h
  exact List.mem_flatten.mpr ⟨g, hg, selectMelody_mem hsm⟩

theorem mem_flatMap_harmony_flatten {gs : List (List Note)} {y : Note}
    (h : y ∈ gs.flatMap harmonyOfGroup) : y ∈ gs.flatten := by
  obtain ⟨g, hg, hy⟩ := List.mem_flatMap.mp h
  exact List.mem_flatten.mpr ⟨g, hg, harmonyOfGroup_subset hy⟩

theorem splitScore_disjoint_aux (gs : List (List Note))
    (hnd : (gs.flatten.map Note.id).Nodup) :
    ∀ x ∈ gs.filterMap selectMelody, ∀ y ∈ gs.flatMap harmonyOfGroup,
      x.id ≠ y.id := by
  induction gs with
  | nil => simp
  | cons g t ih =>
    rw [List.flatten_cons, List.map_append, List.nodup_append] at hnd
    obtain ⟨hg, ht, hdisj⟩ := hnd
    intro x hx y hy
    rw [List.filterMap_cons] at hx
    rw [List.flatMap_cons, List.mem_append] at hy
    rcases hm : selectMelody g with _ | m <;> rw [hm] at hx
    · rcases hy with hy | hy
      · unfold harmonyOfGroup at hy
        rw [hm] at hy
        simp at hy
      · exact ih ht x hx y hy
    · rcases List.mem_cons.mp hx with rfl | hx
      · rcases hy with hy | hy
        · exact (harmonyOfGroup_ne_melody hm hy).symm
        · intro he
          exact hdisj (List.mem_map_of_mem Note.id (selectMelody_mem hm))
            (he ▸ List.mem_map_of_mem Note.id (mem_flatMap_harmony_flatten hy))
      · rcases hy with hy | hy
        · intro he
          exact hdisj (List.mem_map_of_mem Note.id (harmonyOfGroup_subset hy))
            (he.symm ▸ List.mem_map_of_mem Note.id
              (mem_filterMap_selectMelody_flatten hx))
        · exact ih ht x hx y hy

/-- The split is a partition of any note list with pairwise distinct
ids. -/
theorem splitScore_partition (notes : List Note)
    (hnd : (notes.map Note.id).Nodup) :
    (splitScore notes).1.length + (splitScore notes).2.length = notes.length ∧
    ∀ x ∈ (splitScore notes).1, ∀ y ∈ (splitScore notes).2, x.id ≠ y.id := by
  have hfl := groupsOf_flatten notes
  constructor
  · have := splitScore_group_lengths (groupsOf notes) (by rw [hfl]; exact hnd)
      (groupsOf_ne_nil notes)
    rw [hfl] at this
    exact this
  · exact splitScore_disjoint_aux (groupsOf notes) (by rw [hfl]; exact hnd)

/-! ## Loaded scores have pairwise distinct note ids -/

theorem extractNotes_map_id (tracks : List (List RawNote)) (mult : ℚ) :
    (extractNotes tracks mult).map Note.id =
      tracks.enum.flatMap fun p => p.2.enum.map fun q => (p.1, q.1) := by
  unfold extractNotes
  rw [List.map_flatMap]
  congr 1
  funext p
  rw [List.map_map]
  rfl

theorem block_ids_nodup (tI : Nat) (track : List RawNote) :
    (track.enum.map fun q => (tI, q.1)).Nodup := by
  have h : (track.enum.map fun q => (tI, q.1)) =
      (track.enum.map Prod.fst).map fun i => (tI, i) := by
    rw [List.map_map]; rfl
  rw [h, List.enum_map_fst]
  exact (List.nodup_range _).map fun a b hab => (Prod.mk.injEq .. ▸ hab).2

theorem mem_block_ids_fst {tI : Nat} {track : List RawNote}
    {a : Nat × Nat} (h : a ∈ track.enum.map fun q => (tI, q.1)) :
    a.1 = tI := by
  obtain ⟨q, _, hq⟩ := List.mem_map.mp h
  rw [← hq]

theorem mem_enum_blocks_fst_ge (tracks : List (List RawNote)) : ∀ (k : Nat)
    {a : Nat × Nat},
    a ∈ ((tracks.enumFrom k).flatMap fun p => p.2.enum.map fun q => (p.1, q.1)) →
    k ≤ a.1 := by
  induction tracks with
  | nil => intro k a h; simp at h
  | cons tr rest ih =>
    intro k a h
    rw [List.enumFrom_cons, List.flatMap_cons, List.mem_append] at h
    rcases h with h | h
    · exact (mem_block_ids_fst h).ge
    · exact le_trans (Nat.le_succ k) (ih (k + 1) h)

theorem enum_blocks_nodup (tracks : List (List RawNote)) : ∀ (k : Nat),
    ((tracks.enumFrom k).flatMap fun p => p.2.enum.map fun q => (p.1, q.1)).Nodup := by
  induction tracks with
  | nil => intro k; simp
  | cons tr rest ih =>
    intro k
    rw [List.enumFrom_cons, List.flatMap_cons]
    rw [List.nodup_append]
    refine ⟨block_ids_nodup k tr, ih (k + 1), ?_⟩
    intro a ha hb
    have h1 : a.1 = k := mem_block_ids_fst ha
    have h2 : k + 1 ≤ a.1 := mem_enum_blocks_fst_ge rest (k + 1) hb
    omega

theorem extractNotes_ids_nodup (tracks : List (List RawNote)) (mult : ℚ) :
    ((extractNotes tracks mult).map Note.id).Nodup := by
  rw [extractNotes_map_id]
  exact enum_blocks_nodup tracks 0

theorem sortByTime_perm (l : List Note) : List.Perm (sortByTime l) l :=
  List.mergeSort_perm l _

theorem loadScore_ids_nodup (m : RawMidi) (speed : ℚ) :
    ((loadScore m speed).notes.map Note.id).Nodup := by
  unfold loadScore
  exact ((sortByTime_perm _).map Note.id).nodup_iff.mpr
    (extractNotes_ids_nodup m.tracks _)

/-- C2: for every loaded score, the melody/harmony split is a partition
of the parsed notes: the lengths add up and the two sides share no note
id (so each parsed note lands in exactly one side). -/
theorem loaded_split_partition (m : RawMidi) (speed : ℚ) :
    (loadScore m speed).melodyNotes.length +
        (loadScore m speed).harmonyNotes.length =
      (loadScore m speed).notes.length ∧
    ∀ x ∈ (loadScore m speed).melodyNotes,
      ∀ y ∈ (loadScore m speed).harmonyNotes, x.id ≠ y.id := by
  have h := splitScore_partition (loadScore m speed).notes
    (loadScore_ids_nodup m speed)
  have hm : (loadScore m speed).melodyNotes =
      (splitScore (loadScore m speed).notes).1 := rfl
  have hh : (loadScore m speed).harmonyNotes =
      (splitScore (loadScore m speed).notes).2 := rfl
  rw [hm, hh]
  exact h

/-- A one-track demo MIDI source: two raw notes at 0 s (pitches 60 and
64). -/
def demoMidi : RawMidi :=
  { tracks := [[{ midi := 60, time := 0, duration := 1, velocity := 1 },
                { midi := 64, time := 0, duration := 1, velocity := 1 }]]
    duration := 1 }

/-- Witness for C2 at a concrete input: the partition equation holds for
the demo score. -/
theorem loaded_split_partition_witness :
    (loadScore demoMidi 1).melodyNotes.length +
        (loadScore demoMidi 1).harmonyNotes.length =
      (loadScore demoMidi 1).notes.length :=
  (loaded_split_partition demoMidi 1).1

/-! ## Melody-gate effects (C4 machinery) -/

theorem foldl_playMelodyNote_played_subset (l : List Note) :
    ∀ s : GameState,
      s.playedMelodyIds ⊆ (l.foldl playMelodyNote s).playedMelodyIds := by
  induction l with
  | nil => intro s; exact Finset.Subset.refl _
  | cons x t ih =>
    intro s
    rw [List.foldl_cons]
    refine Finset.Subset.trans ?_ (ih (playMelodyNote s x))
    unfold playMelodyNote
    exact Finset.subset_insert _ _

theorem foldl_playMelodyNote_touched (l : List Note) : ∀ s : GameState,
    (l.foldl playMelodyNote s).touchedMelodyCount
      = s.touchedMelodyCount + l.length := by
  induction l with
  | nil => intro s; simp
  | cons x t ih =>
    intro s
    rw [List.foldl_cons, ih]
    unfold playMelodyNote
    simp only [List.length_cons]
    omega

theorem foldl_playMelodyNote_marks (l : List Note) : ∀ s : GameState,
    ∀ n ∈ l, n.id ∈ (l.foldl playMelodyNote s).playedMelodyIds := by
  induction l with
  | nil => intro s n hn; simp at hn
  | cons x t ih =>
    intro s n hn
    rw [List.foldl_cons]
    rcases List.mem_cons.mp hn with rfl | hn
    · apply foldl_playMelodyNote_played_subset t (playMelodyNote s n)
      unfold playMelodyNote
      exact Finset.mem_insert_self _ _
    · exact ih (playMelodyNote s x) n hn

theorem mem_simultaneousNotes {s : GameState} {t n : Note} :
    n ∈ simultaneousNotes s t ↔
      n ∈ s.melodyNotes ∧ n.id ∉ s.playedMelodyIds ∧
        mathAbs (n.time - t.time) ≤ epsilon := by
  unfold simultaneousNotes
  rw [List.mem_filter]
  simp only [decide_eq_true_eq]

/-- C4: whenever the gate runs in Playing or GatedPaused mode and the
hit detector returns a touched note `t`, every not-yet-played melody
note within EPSILON = 0.05 s of `t`'s startTime is marked played and its
sound is triggered, and `touchedMelodyCount` grows by exactly one per
such note (the length of the `simultaneousNotes` filter). -/
theorem gate_effect (s : GameState) (t : Note)
    (hmode : s.isPlaying = true ∨ s.gatedPause = true)
    (ht : getTouchedNote s = some t) :
    ((handleMelodyGate s).1.touchedMelodyCount
        = s.touchedMelodyCount + (simultaneousNotes s t).length) ∧
    ((handleMelodyGate s).2 = simultaneousNotes s t) ∧
    (∀ n ∈ s.melodyNotes, n.id ∉ s.playedMelodyIds →
        mathAbs (n.time - t.time) ≤ epsilon →
        n.id ∈ (handleMelodyGate s).1.playedMelodyIds ∧
          n ∈ (handleMelodyGate s).2) := by
  have hgate : handleMelodyGate s
      = ((simultaneousNotes s t).foldl playMelodyNote s,
         simultaneousNotes s t) := by
    unfold handleMelodyGate
    rw [ht]
    rcases hgp : s.gatedPause with _ | _
    · rcases hip : s.isPlaying with _ | _
      · rcases hmode with h | h
        · rw [hip] at h; cases h
        · rw [hgp] at h; cases h
      · simp
    · simp
  rw [hgate]
  refine ⟨foldl_playMelodyNote_touched _ s, rfl, ?_⟩
  intro n hn hp he
  have hmem : n ∈ simultaneousNotes s t :=
    mem_simultaneousNotes.mpr ⟨hn, hp, he⟩
  exact ⟨foldl_playMelodyNote_marks _ s n hmem, hmem⟩

/-- A white key for pitch 60 with its DOM rectangle at x = 100, width
30. -/
def wKey : Key := { midi := 60, rectLeft := 100, rectWidth := 30, isWhite := true }
/-- Melody note at 0 s, pitch 60. -/
def wNote1 : Note :=
  { id := (0, 0), midi := 60, time := 0, duration := 1, velocity := 1, trackIndex := 0 }
/-- Melody note at 0.04 s (within EPSILON of `wNote1`), pitch 64. -/
def wNote2 : Note :=
  { id := (0, 1), midi := 64, time := 1 / 25, duration := 1, velocity := 1, trackIndex := 0 }
/-- A hand point inside `wNote1`'s falling rectangle in the 1000-px-high
reference geometry. -/
def wPoint : Point := { x := 115, y := 700 }

/-- A concrete playing state: two unplayed melody notes 0.04 s apart,
one hand point touching the first. -/
def sGate : GameState :=
  { rawMidi := demoMidi
    notes := [wNote1, wNote2]
    melodyNotes := [wNote1, wNote2]
    harmonyNotes := []
    isPlaying := true
    gatedPause := false
    currentTime := 0
    duration := 10
    currentSpeed := 1
    playedMelodyIds := ∅
    touchedMelodyCount := 0
    finalScore := 0
    allFingerPoints := [wPoint]
    pianoKeys := [wKey]
    canvasH := 1000
    containerLeft := 0 }

theorem sGate_touched : getTouchedNote sGate = some wNote1 := by
  norm_num [getTouchedNote, touchCheck, sGate, wNote1, wNote2, wKey, wPoint,
    keyX, noteYOf, noteHeightOf, noteWidthOf, pianoTopY, pixelsPerSecond,
    hitZoneY, hitZoneTolerance, lookAhead, lookBehind, WHITE_KEY_WIDTH,
    max_def, List.findSome?_cons, List.find?]

/-- Witness for C4 at a concrete input: a single hit touching `wNote1`
marks both notes 0.04 s apart as played, counts 2 touches and triggers
both sounds. -/
theorem gate_effect_witness :
    (handleMelodyGate sGate).1.touchedMelodyCount = 2 ∧
    wNote1.id ∈ (handleMelodyGate sGate).1.playedMelodyIds ∧
    wNote2.id ∈ (handleMelodyGate sGate).1.playedMelodyIds ∧
    wNote1 ∈ (handleMelodyGate sGate).2 ∧
    wNote2 ∈ (handleMelodyGate sGate).2 := by
  have h := gate_effect sGate wNote1 (Or.inl rfl) sGate_touched
  have hsim : simultaneousNotes sGate wNote1 = [wNote1, wNote2] := by
    norm_num [simultaneousNotes, sGate, wNote1, wNote2, mathAbs, epsilon,
      List.filter]
  have h1 := h.2.2 wNote1 (by simp [sGate]) (by simp [sGate])
    (by norm_num [wNote1, mathAbs, epsilon])
  have h2 := h.2.2 wNote2 (by simp [sGate]) (by simp [sGate])
    (by norm_num [wNote1, wNote2, mathAbs, epsilon])
  refine ⟨?_, h1.1, h2.1, h1.2, h2.2⟩
  rw [h.1, hsim]
  rfl

/-! ## Auto-mark (C5) and song end (C6) -/

theorem foldl_markStep_subset (c : ℚ) (l : List Note) :
    ∀ P : Finset (Nat × Nat),
      P ⊆ l.foldl
        (fun acc note =>
          if note.id ∉ acc ∧ note.time < c then insert note.id acc else acc)
        P := by
  induction l with
  | nil => intro P; exact Finset.Subset.refl _
  | cons x t ih =>
    intro P
    rw [List.foldl_cons]
    refine Finset.Subset.trans ?_ (ih _)
    split
    · exact Finset.subset_insert _ _
    · exact Finset.Subset.refl _

theorem foldl_markStep_marks (c : ℚ) (l : List Note) :
    ∀ P : Finset (Nat × Nat), ∀ n ∈ l, n.time < c →
      n.id ∈ l.foldl
        (fun acc note =>
          if note.id ∉ acc ∧ note.time < c then insert note.id acc else acc)
        P := by
  induction l with
  | nil => intro P n hn; simp at hn
  | cons x t ih =>
    intro P n hn htime
    rw [List.foldl_cons]
    rcases List.mem_cons.mp hn with rfl | hn
    · refine Finset.mem_of_subset (foldl_markStep_subset c t _) ?_
      by_cases hmem : n.id ∈ P
      · rw [if_neg (by simp [hmem])]; exact hmem
      · rw [if_pos ⟨hmem, htime⟩]; exact Finset.mem_insert_self _ _
    · exact ih _ n hn htime

theorem handleMelodyGate_none {s : GameState}
    (h : getTouchedNote s = none) : handleMelodyGate s = (s, []) := by
  unfold handleMelodyGate
  rw [h]

/-- C5: the auto-mark pass of each Playing tick adds every melody note
whose startTime has passed `currentTime` by more than 0.1 s to
`playedMelodyIds` and leaves `touchedMelodyCount` untouched; in a full
tick where the gate then finds no touched note, `touchedMelodyCount` is
unchanged as well. -/
theorem autoMark_spec (s : GameState) :
    (autoMark s).touchedMelodyCount = s.touchedMelodyCount ∧
    s.playedMelodyIds ⊆ (autoMark s).playedMelodyIds ∧
    (∀ n ∈ s.melodyNotes, n.time < s.currentTime - 1 / 10 →
      n.id ∈ (autoMark s).playedMelodyIds) ∧
    (∀ t, s.isPlaying = true → t < s.duration →
      getTouchedNote (autoMark { s with currentTime := t }) = none →
      (animateTick t s).1.touchedMelodyCount = s.touchedMelodyCount) := by
  refine ⟨rfl, ?_, ?_, ?_⟩
  · exact foldl_markStep_subset _ s.melodyNotes s.playedMelodyIds
  · exact fun n hn ht =>
      foldl_markStep_marks _ s.melodyNotes s.playedMelodyIds n hn ht
  · intro t hp ht hnone
    unfold animateTick
    rw [if_pos hp]
    dsimp only
    split
    · next hle => exact absurd hle (not_le.mpr ht)
    · rw [handleMelodyGate_none hnone]
      rfl

/-- Witness for C5 at a concrete input: with the clock at 1 s, the
melody note at 0 s is auto-marked and the counter stays 0. -/
theorem autoMark_spec_witness :
    wNote1.id ∈ (autoMark { sGate with currentTime := 1 }).playedMelodyIds ∧
    (autoMark { sGate with currentTime := 1 }).touchedMelodyCount = 0 := by
  have h := autoMark_spec { sGate with currentTime := 1 }
  refine ⟨h.2.2.1 wNote1 (by simp [sGate]) (by norm_num [wNote1, sGate]), ?_⟩
  rw [h.1]
  rfl

/-- C6: when a Playing tick reads a transport time equal to `duration`,
the controller stops (`isPlaying := false`), `currentTime` ends exactly
at `duration`, and the final score is `touched / melody count * 100`,
defined as 0 when there are no melody notes. -/
theorem song_end (s : GameState) (t : ℚ) (hp : s.isPlaying = true)
    (ht : t = s.duration) :
    (animateTick t s).1.isPlaying = false ∧
    (animateTick t s).1.currentTime = s.duration ∧
    (animateTick t s).1.finalScore =
      (if s.melodyNotes.length > 0
       then (s.touchedMelodyCount : ℚ) / (s.melodyNotes.length : ℚ) * 100
       else 0) ∧
    (s.melodyNotes = [] → (animateTick t s).1.finalScore = 0) := by
  subst ht
  unfold animateTick
  rw [hp]
  simp only [if_true]
  rw [if_pos (le_refl _)]
  unfold pausePlayback computeFinalScore
  refine ⟨rfl, rfl, rfl, ?_⟩
  intro hempty
  simp [hempty]

/-- A state at the end of its song with no melody notes (degenerate
score). -/
def sEmpty : GameState :=
  { sGate with melodyNotes := [], touchedMelodyCount := 0 }

/-- Witness for C6 at concrete inputs: the demo state stops with its
clock clamped at the 10 s duration, and the empty-melody state ends
with a final score of 0 rather than a division error. -/
theorem song_end_witness :
    (animateTick 10 sGate).1.isPlaying = false ∧
    (animateTick 10 sGate).1.currentTime = 10 ∧
    (animateTick 10 sEmpty).1.finalScore = 0 := by
  have h1 := song_end sGate 10 rfl rfl
  have h2 := song_end sEmpty 10 rfl rfl
  exact ⟨h1.1, h1.2.1, h2.2.2.2 rfl⟩

/-! ## Harmony scheduling (C7) -/

/-- C7 (amended): both `scheduleNotes` variants schedule exactly the
harmony notes with `startTime >= currentTime`, each at its absolute
transport offset `note.time`; the src/js/audio.js variant clamps the
sounded duration to the 0.1 s floor, while the src/script.js variant
passes the note's raw duration through unclamped. -/
theorem scheduleNotes_spec (harmonyNotes : List Note) (currentTime : ℚ) :
    (∀ e ∈ scheduleNotesModule harmonyNotes currentTime,
       e.2.2 ∈ harmonyNotes ∧ currentTime ≤ e.2.2.time ∧
       e.1 = e.2.2.time ∧ (1 : ℚ) / 10 ≤ e.2.1 ∧
       e.2.1 = max ((1 : ℚ) / 10) e.2.2.duration) ∧
    (∀ n ∈ harmonyNotes, currentTime ≤ n.time →
       (n.time, max ((1 : ℚ) / 10) n.duration, n)
         ∈ scheduleNotesModule harmonyNotes currentTime) ∧
    (∀ e ∈ scheduleNotesScript harmonyNotes currentTime,
       e.2.2 ∈ harmonyNotes ∧ currentTime ≤ e.2.2.time ∧
       e.1 = e.2.2.time ∧ e.2.1 = e.2.2.duration) ∧
    (∀ n ∈ harmonyNotes, currentTime ≤ n.time →
       (n.time, n.duration, n)
         ∈ scheduleNotesScript harmonyNotes currentTime) := by
  refine ⟨?_, ?_, ?_, ?_⟩
  · intro e he
    obtain ⟨n, hn, hf⟩ := List.mem_filterMap.mp he
    by_cases hc : currentTime ≤ n.time
    · rw [if_pos hc, Option.some.injEq] at hf
      subst hf
      exact ⟨hn, hc, rfl, le_max_left _ _, rfl⟩
    · rw [if_neg hc] at hf; cases hf
  · intro n hn hc
    exact List.mem_filterMap.mpr ⟨n, hn, by rw [if_pos hc]⟩
  · intro e he
    obtain ⟨n, hn, hf⟩ := List.mem_filterMap.mp he
    by_cases hc : currentTime ≤ n.time
    · rw [if_pos hc, Option.some.injEq] at hf
      subst hf
      exact ⟨hn, hc, rfl, rfl⟩
    · rw [if_neg hc] at hf; cases hf
  · intro n hn hc
    exact List.mem_filterMap.mpr ⟨n, hn, by rw [if_pos hc]⟩

/-- A harmony note of duration 0.02 s (below the 0.1 s floor) at 5 s. -/
def shortNote : Note :=
  { id := (1, 0), midi := 50, time := 5, duration := 1 / 50, velocity := 1,
    trackIndex := 1 }

/-- C7 (counterexample): the src/script.js `scheduleNotes` triggers the
0.02 s harmony note with its raw 0.02 s duration — no 0.1 s floor is
applied in that variant. -/
theorem scheduleNotes_script_no_clamp :
    scheduleNotesScript [shortNote] 0 = [(5, 1 / 50, shortNote)] ∧
    ¬ ((1 : ℚ) / 10 ≤ 1 / 50) := by
  constructor
  · norm_num [scheduleNotesScript, shortNote, List.filterMap]
  · norm_num

/-- Witness for the amended C7 theorem at a concrete input: the module
variant schedules the 0.02 s note at its absolute offset 5 s with its
duration clamped up to at least 0.1 s. -/
theorem scheduleNotes_spec_witness :
    (5, max ((1 : ℚ) / 10) (1 / 50), shortNote)
      ∈ scheduleNotesModule [shortNote] 0 ∧
    (1 : ℚ) / 10 ≤ max ((1 : ℚ) / 10) (1 / 50) := by
  have h := scheduleNotes_spec [shortNote] 0
  have hmem := h.2.1 shortNote (List.mem_singleton.mpr rfl)
    (by norm_num [shortNote])
  have hd : shortNote.time = 5 := rfl
  have hd2 : shortNote.duration = 1 / 50 := rfl
  rw [hd, hd2] at hmem
  exact ⟨hmem, le_max_left _ _⟩

/-! ## Speed change round trip (C8) -/

theorem changeSpeed_rawMidi (speed : ℚ) (s : GameState) :
    (changeSpeed speed s).rawMidi = s.rawMidi := rfl

theorem changeSpeed_notes (speed : ℚ) (s : GameState) :
    (changeSpeed speed s).notes = (loadScore s.rawMidi speed).notes := rfl

/-- C8: a speed change re-derives every note from the raw MIDI source —
each loaded note is some raw note with both startTime and duration
multiplied by `TEMPO_MULTIPLIER = 1 / speed` — and therefore
`changeSpeed 1.0` after `changeSpeed 0.5` restores exactly the timings
of the original unscaled load. -/
theorem changeSpeed_roundtrip (s : GameState)
    (horig : s.notes = (loadScore s.rawMidi 1).notes) :
    (changeSpeed 1 (changeSpeed (1 / 2) s)).notes = s.notes ∧
    (∀ (m : RawMidi) (sp : ℚ), ∀ n ∈ (loadScore m sp).notes,
       ∃ p, p ∈ m.tracks.enum ∧ ∃ q, q ∈ p.2.enum ∧
         n = buildNote (1 / sp) p.1 q.1 q.2 ∧
         n.time = q.2.time * (1 / sp) ∧
         n.duration = q.2.duration * (1 / sp)) := by
  constructor
  · rw [changeSpeed_notes, changeSpeed_rawMidi, ← horig]
  · intro m sp n hn
    have hn' : n ∈ extractNotes m.tracks (1 / sp) :=
      (sortByTime_perm _).mem_iff.mp hn
    unfold extractNotes at hn'
    obtain ⟨p, hp, hq⟩ := List.mem_flatMap.mp hn'
    obtain ⟨q, hq', hb⟩ := List.mem_map.mp hq
    obtain ⟨idx, r⟩ := q
    refine ⟨p, hp, (idx, r), hq', hb.symm, ?_, ?_⟩ <;> rw [← hb] <;> rfl

/-- A state holding exactly the notes of the unscaled demo load. -/
def sLoaded : GameState :=
  { sGate with rawMidi := demoMidi, notes := (loadScore demoMidi 1).notes }

/-- Witness for C8 at a concrete input: the 0.5× then 1.0× speed-change
round trip on the demo state restores its notes. -/
theorem changeSpeed_roundtrip_witness :
    (changeSpeed 1 (changeSpeed (1 / 2) sLoaded)).notes = sLoaded.notes :=
  (changeSpeed_roundtrip sLoaded rfl).1

/-! ## Hit-zone boundary inclusivity (C9) -/

/-- C9: the hit-zone band test of `getTouchedNote` uses inclusive
comparisons: a candidate melody note whose rectangle exactly meets a
band edge (`noteTop = hitZoneY + tolerance` or
`noteBottom = hitZoneY - tolerance`) is still touchable, so a hand
point inside the rectangle makes the detector return the note. -/
theorem hit_zone_boundary_inclusive (s : GameState) (p : Point) (n : Note)
    (k : Key)
    (hf : s.allFingerPoints = [p]) (hm : s.melodyNotes = [n])
    (hkeys : s.pianoKeys.length ≠ 0)
    (hk : s.pianoKeys.find? (fun key => decide (key.midi = n.midi)) = some k)
    (hplayed : n.id ∉ s.playedMelodyIds)
    (ht1 : -lookBehind < n.time - s.currentTime)
    (ht2 : n.time - s.currentTime < lookAhead)
    (hband :
      noteYOf s.canvasH (n.time - s.currentTime) - noteHeightOf s.canvasH n
          = hitZoneY s.canvasH + hitZoneTolerance
        ∨ noteYOf s.canvasH (n.time - s.currentTime)
          = hitZoneY s.canvasH - hitZoneTolerance)
    (hx1 : keyX s.containerLeft k - noteWidthOf k / 2 ≤ p.x)
    (hx2 : p.x ≤ keyX s.containerLeft k + noteWidthOf k / 2)
    (hy1 : noteYOf s.canvasH (n.time - s.currentTime)
            - noteHeightOf s.canvasH n ≤ p.y)
    (hy2 : p.y ≤ noteYOf s.canvasH (n.time - s.currentTime)) :
    getTouchedNote s = some n := by
  have h10 : (10 : ℚ) ≤ noteHeightOf s.canvasH n := le_max_left _ _
  have htol : hitZoneTolerance = 50 := rfl
  have hbandfull :
      hitZoneY s.canvasH - hitZoneTolerance
          ≤ noteYOf s.canvasH (n.time - s.currentTime) ∧
        noteYOf s.canvasH (n.time - s.currentTime)
            - noteHeightOf s.canvasH n
          ≤ hitZoneY s.canvasH + hitZoneTolerance := by
    rcases hband with hb | hb
    · constructor
      · rw [htol] at hb ⊢; linarith
      · rw [hb]
    · constructor
      · rw [hb]
      · rw [htol] at hb ⊢; linarith
  have hcheck : touchCheck s p n = some n := by
    unfold touchCheck
    rw [if_neg hplayed]
    dsimp only
    rw [if_pos ⟨ht1, ht2⟩, hk]
    dsimp only
    rw [if_pos hbandfull]
    rw [if_pos ⟨hx1, hx2, hy1, hy2⟩]
  unfold getTouchedNote
  rw [if_neg (by rw [hf]; simp [hkeys]), hf, hm]
  rw [List.findSome?_cons, List.findSome?_cons, hcheck]

/-- A melody note whose falling rectangle's top edge lies exactly at
`hitZoneY + tolerance` in the 1000-px reference geometry at time 0. -/
def bNote : Note :=
  { id := (2, 0), midi := 60, time := 0, duration := 21 / 43, velocity := 1,
    trackIndex := 0 }
/-- A hand point inside `bNote`'s rectangle. -/
def bPoint : Point := { x := 115, y := 700 }

/-- A state whose single candidate note exactly meets the band edge. -/
def sBoundary : GameState :=
  { sGate with
    notes := [bNote]
    melodyNotes := [bNote]
    allFingerPoints := [bPoint] }

/-- Witness for C9 at a concrete input: with `noteTop` exactly at
`hitZoneY + tolerance` (650 px), the detector still returns the note. -/
theorem hit_zone_boundary_inclusive_witness :
    getTouchedNote sBoundary = some bNote := by
  refine hit_zone_boundary_inclusive sBoundary bPoint bNote wKey
    rfl rfl (by simp [sBoundary, sGate]) ?_ (by simp [sBoundary, sGate])
    ?_ ?_ ?_ ?_ ?_ ?_ ?_
  · simp [sBoundary, sGate, wKey, bNote, List.find?]
  · norm_num [sBoundary, sGate, bNote, lookBehind]
  · norm_num [sBoundary, sGate, bNote, lookAhead]
  · left
    norm_num [sBoundary, sGate, bNote, noteYOf, noteHeightOf, pianoTopY,
      pixelsPerSecond, hitZoneY, hitZoneTolerance, max_def]
  · norm_num [sBoundary, sGate, bPoint, wKey, keyX, noteWidthOf,
      WHITE_KEY_WIDTH]
  · norm_num [sBoundary, sGate, bPoint, wKey, keyX, noteWidthOf,
      WHITE_KEY_WIDTH]
  · norm_num [sBoundary, sGate, bNote, bPoint, noteYOf, noteHeightOf,
      pianoTopY, pixelsPerSecond, max_def]
  · norm_num [sBoundary, sGate, bNote, bPoint, noteYOf, pianoTopY,
      pixelsPerSecond]

/-! ## The score-credit invariant (C10) -/

theorem foldl_playMelodyNote_card (l : List Note) : ∀ s : GameState,
    (l.map Note.id).Nodup → (∀ n ∈ l, n.id ∉ s.playedMelodyIds) →
    (l.foldl playMelodyNote s).playedMelodyIds.card
      = s.playedMelodyIds.card + l.length := by
  induction l with
  | nil => intro s _ _; simp
  | cons x t ih =>
    intro s hnd hfresh
    rw [List.map_cons, List.nodup_cons] at hnd
    rw [List.foldl_cons]
    have hx : x.id ∉ s.playedMelodyIds := hfresh x (List.mem_cons_self x t)
    have hcard : (playMelodyNote s x).playedMelodyIds.card
        = s.playedMelodyIds.card + 1 := by
      unfold playMelodyNote
      exact Finset.card_insert_of_not_mem hx
    have hfresh' : ∀ n ∈ t, n.id ∉ (playMelodyNote s x).playedMelodyIds := by
      intro n hn
      unfold playMelodyNote
      rw [Finset.mem_insert]
      push_neg
      refine ⟨?_, hfresh n (List.mem_cons_of_mem x hn)⟩
      intro he
      exact hnd.1 (he ▸ List.mem_map_of_mem Note.id hn)
    rw [ih (playMelodyNote s x) hnd.2 hfresh', hcard, List.length_cons]
    omega

theorem simultaneousNotes_ids_nodup {s : GameState} {t : Note}
    (hnd : (s.melodyNotes.map Note.id).Nodup) :
    ((simultaneousNotes s t).map Note.id).Nodup := by
  unfold simultaneousNotes
  exact hnd.sublist ((List.filter_sublist _).map Note.id)

/-- C10: every operation preserves
`touchedMelodyCount ≤ |playedMelodyIds|` — the gate credits only ids it
simultaneously inserts fresh into the played set, the tick auto-mark
only adds ids, and seek, speed change and song change reset the counter
to 0 — so a melody note is credited at most once per playthrough. -/
theorem score_credit_invariant (s : GameState)
    (hnd : (s.melodyNotes.map Note.id).Nodup)
    (hinv : s.touchedMelodyCount ≤ s.playedMelodyIds.card) :
    ((handleMelodyGate s).1.touchedMelodyCount
        ≤ (handleMelodyGate s).1.playedMelodyIds.card) ∧
    ((autoMark s).touchedMelodyCount
        ≤ (autoMark s).playedMelodyIds.card) ∧
    (∀ t, (seekTo t s).touchedMelodyCount
        ≤ (seekTo t s).playedMelodyIds.card) ∧
    (∀ sp, (changeSpeed sp s).touchedMelodyCount
        ≤ (changeSpeed sp s).playedMelodyIds.card) ∧
    (∀ m, (changeSong m s).touchedMelodyCount
        ≤ (changeSong m s).playedMelodyIds.card) := by
  refine ⟨?_, ?_, ?_, ?_, ?_⟩
  · unfold handleMelodyGate
    rcases ht : getTouchedNote s with _ | t
    · exact hinv
    · have hfold : ((simultaneousNotes s t).foldl playMelodyNote s).touchedMelodyCount
          ≤ ((simultaneousNotes s t).foldl playMelodyNote s).playedMelodyIds.card := by
        rw [foldl_playMelodyNote_card _ s (simultaneousNotes_ids_nodup hnd)
            (fun n hn => (mem_simultaneousNotes.mp hn).2.1),
          foldl_playMelodyNote_touched _ s]
        omega
      dsimp only
      split
      · exact hfold
      · split
        · exact hfold
        · exact hinv
  · unfold autoMark
    calc s.touchedMelodyCount ≤ s.playedMelodyIds.card := hinv
      _ ≤ _ := Finset.card_le_card (foldl_markStep_subset _ _ _)
  · intro t
    unfold seekTo
    exact Nat.zero_le _
  · intro sp
    unfold changeSpeed
    exact Nat.zero_le _
  · intro m
    unfold changeSong
    exact Nat.zero_le _

/-- Witness for C10 at a concrete input: the invariant holds for the
demo state after a gate step. -/
theorem score_credit_invariant_witness :
    (handleMelodyGate sGate).1.touchedMelodyCount
      ≤ (handleMelodyGate sGate).1.playedMelodyIds.card := by
  have h := score_credit_invariant sGate
    (by simp [sGate, wNote1, wNote2]; decide) (by norm_num [sGate])
  exact h.1

end Airkeys
